import Mathlib

/-!
Verification of the Total Agatston extraction core of `nfyg-api`.

The development shallowly embeds the two algorithmic modules of the
repository:

* `src/agatson/Total_Agatston_Extractor.py` — the tabular value locator
  (OCR word model, row/column matching, numeric extraction, fallback).
* `src/agatson/Total_Agatston_Pattern_Extractor.py` — the layout pattern
  matcher (anchor colour verification, priority-ordered detection).

Python object identity (`w is total_word`) is modelled by indexing the word
list: an anchor is a `(index, word)` pair from `List.enum`, and the identity
test compares indices.  Rational numbers stand for the Python floats
produced by `center_x`/`center_y` and the column mean; all quantities
involved are exact halves and means of halves, so ℚ represents them
exactly.  A raised `ValueError` is modelled by an error value
(`Except`/`Option`).
-/

namespace Agatston

/-- One OCR word, mirroring the `OCRWord` dataclass. -/
structure OCRWord where
  text : String
  left : Int
  top : Int
  width : Int
  height : Int
  conf : ℚ
  line_num : Int
  block_num : Int
  page_num : Int
  par_num : Int
deriving DecidableEq, Repr

/-- Derived `OCRWord.center_x`: `left + width / 2`. -/
def center_x (w : OCRWord) : ℚ := (w.left : ℚ) + (w.width : ℚ) / 2

/-- Derived `OCRWord.center_y`: `top + height / 2`. -/
def center_y (w : OCRWord) : ℚ := (w.top : ℚ) + (w.height : ℚ) / 2

/-- One raw token of the Tesseract output dictionary (parallel arrays,
realigned record-wise).  `conf = none` models a confidence entry on which
`float(...)` raises, i.e. an unparseable confidence. -/
structure RawToken where
  text : String
  conf : Option ℚ
  left : Int
  top : Int
  width : Int
  height : Int
  line_num : Int
  block_num : Int
  page_num : Int
  par_num : Int
deriving DecidableEq, Repr

/-- Python `str.strip` on a character list: drop whitespace from both ends. -/
def stripWS (l : List Char) : List Char :=
  ((l.dropWhile Char.isWhitespace).reverse.dropWhile Char.isWhitespace).reverse

/-- The `OCRWord` built from one raw token inside the `extract_words` loop:
the stored text is the stripped text, and an unparseable confidence becomes
the `-1` sentinel. -/
def mkOCRWord (t : RawToken) : OCRWord :=
  { text := ⟨stripWS t.text.data⟩
    left := t.left
    top := t.top
    width := t.width
    height := t.height
    conf := match t.conf with | some c => c | none => -1
    line_num := t.line_num
    block_num := t.block_num
    page_num := t.page_num
    par_num := t.par_num }

/-- The loop of `extract_words`: skip tokens whose stripped text is empty,
keep the rest in order. -/
def buildWords : List RawToken → List OCRWord
  | [] => []
  | t :: rest =>
      if stripWS t.text.data = [] then buildWords rest
      else mkOCRWord t :: buildWords rest

/-- Function `extract_words`: `none` models the `ValueError` raised when no word
survives (the spec's `NoTextRecognized`). -/
def extract_words (data : List RawToken) : Option (List OCRWord) :=
  let ws := buildWords data
  if ws = [] then none else some ws

/-- One step of `re.sub(r"\s+", " ", text)`: each maximal whitespace run
becomes a single space. -/
def collapseWS : List Char → List Char
  | [] => []
  | [c] => if c.isWhitespace then [' '] else [c]
  | a :: b :: rest =>
      if a.isWhitespace ∧ b.isWhitespace then collapseWS (b :: rest)
      else (if a.isWhitespace then ' ' else a) :: collapseWS (b :: rest)

/-- Function `_normalize`: collapse whitespace runs, strip, lowercase. -/
def normalize (s : String) : List Char :=
  (stripWS (collapseWS s.data)).map Char.toLower

/-- Characters allowed after the leading digit of the numeric pattern
`[-+]?\d[\d,\.]*`. -/
def isNumTail (c : Char) : Bool := c.isDigit || c = ',' || c = '.'

/-- Does a match of `[-+]?\d[\d,\.]*` start at the head of this suffix? -/
def startsNum : List Char → Bool
  | [] => false
  | c :: rest =>
      c.isDigit ||
        ((c = '-' || c = '+') && match rest with
          | [] => false
          | d :: _ => d.isDigit)

/-- Python `re.search` for the pattern `[-+]?\d[\d,\.]*`: leftmost match position,
greedy extension of the tail. -/
def numSearch : List Char → Option (List Char)
  | [] => none
  | c :: rest =>
      if c.isDigit then some (c :: rest.takeWhile isNumTail)
      else if c = '-' || c = '+' then
        match rest with
        | [] => none
        | d :: rest2 =>
            if d.isDigit then some (c :: d :: rest2.takeWhile isNumTail)
            else numSearch rest
      else numSearch rest

/-- Numeric value of a digit character. -/
def digitVal (c : Char) : Nat := c.toNat - 48

/-- Python `int(...)` on a nonempty digits-only string. -/
def natFromDigits (l : List Char) : Nat :=
  l.foldl (fun n c => 10 * n + digitVal c) 0

/-- The numeric-extraction step shared by `extract_candidates` and
`fallback_search`: first regex match, delete every non-digit character
(`re.sub(r"[^0-9]", "", ...)`), convert with `int`. -/
def numericValue (s : String) : Option Int :=
  match numSearch s.data with
  | none => none
  | some m =>
      let digits := m.filter Char.isDigit
      if digits = [] then none else some ((natFromDigits digits : Nat) : Int)

/-- Function `find_total_words`, enumerated: the words whose normalized text equals
`"total"`, together with their positions (positions model Python object
identity).  The `ValueError` on emptiness is checked at the call site in
`extract_total_agatston_score`. -/
def find_total_words (words : List OCRWord) : List (Nat × OCRWord) :=
  words.enum.filter (fun p => normalize p.2.text = "total".data)

/-- The words whose normalized text starts with `"agatston"`. -/
def agatston_words (words : List OCRWord) : List OCRWord :=
  words.filter (fun w => ("agatston".data).isPrefixOf (normalize w.text))

/-- Function `find_agatston_column_center`: mean of the `center_x` of all column
matches; `none` models the `ValueError` when there is no match. -/
def find_agatston_column_center (words : List OCRWord) : Option ℚ :=
  let aw := agatston_words words
  if aw = [] then none
  else some ((aw.map center_x).sum / (aw.length : ℚ))

/-- The "keep the strictly closer candidate" accumulator update shared by
the inner loop of `extract_candidates` and the loop of `fallback_search`:
`f x` produces the `(distance, value)` pair of `x` when `x` qualifies, and
the accumulator is replaced only on strictly smaller distance. -/
def stepMin {α : Type} (f : α → Option (ℚ × Int)) (acc : Option (ℚ × Int))
    (x : α) : Option (ℚ × Int) :=
  match f x with
  | none => acc
  | some p =>
      match acc with
      | none => some p
      | some b => if p.1 < b.1 then some p else some b

/-- Body of the inner loop of `extract_candidates` for anchor index
`anchorIdx`: skip the anchor itself (`w is total_word`), require a numeric
match with nonempty digits, and pair the value with the horizontal distance
to the column center. -/
def candMap (center : ℚ) (anchorIdx : Nat) (iw : Nat × OCRWord) :
    Option (ℚ × Int) :=
  if iw.1 = anchorIdx then none
  else
    match numericValue iw.2.text with
    | none => none
    | some v => some (|center_x iw.2 - center|, v)

/-- The `same_line` selection of `extract_candidates`: words sharing
`line_num` and `block_num` with the anchor, enumerated. -/
def same_line (words : List OCRWord) (anchor : OCRWord) :
    List (Nat × OCRWord) :=
  words.enum.filter
    (fun p => p.2.line_num = anchor.line_num ∧ p.2.block_num = anchor.block_num)

/-- One iteration of the outer loop of `extract_candidates`: the single
closest numeric same-line word of one anchor, if any. -/
def candidateFor (words : List OCRWord) (center : ℚ) (a : Nat × OCRWord) :
    Option (ℚ × Int) :=
  (same_line words a.2).foldl (stepMin (candMap center a.1)) none

/-- Function `extract_candidates`: one `(distance, value)` candidate per row anchor
that found a numeric same-line word. -/
def extract_candidates (words : List OCRWord) (totals : List (Nat × OCRWord))
    (center : ℚ) : List (ℚ × Int) :=
  totals.filterMap (candidateFor words center)

/-- Body of the loop of `fallback_search`: a word qualifies when it has a
numeric match and `abs(center_y) ≤ y_threshold`; its key is the horizontal
distance to the column center. -/
def fallMap (center thr : ℚ) (w : OCRWord) : Option (ℚ × Int) :=
  match numericValue w.text with
  | none => none
  | some v =>
      if |center_y w| > thr then none
      else some (|center_x w - center|, v)

/-- Function `fallback_search` with its default threshold `y_threshold = 30`. -/
def fallback_search (words : List OCRWord) (center : ℚ) (thr : ℚ := 30) :
    Option Int :=
  (words.foldl (stepMin (fallMap center thr)) none).map Prod.snd

/-- Stable insertion of one candidate into a list sorted by distance:
an equal-distance candidate that arrived earlier stays earlier. -/
def insertByDist (a : ℚ × Int) : List (ℚ × Int) → List (ℚ × Int)
  | [] => [a]
  | b :: t => if a.1 ≤ b.1 then a :: b :: t else b :: insertByDist a t

/-- Python `candidates.sort(key=lambda item: item[0])`: the sort is stable,
and any stable sort by the same key computes the same list; insertion sort
is used here. -/
def sortByDist (l : List (ℚ × Int)) : List (ℚ × Int) :=
  l.foldr insertByDist []

/-- The failure taxonomy of `extract_total_agatston_score` (each case is a
distinct `ValueError` in the source). -/
inductive ExtractError
  | rowLabelNotFound
  | columnLabelNotFound
  | noIntersectionValue
deriving DecidableEq, Repr

/-- Function `extract_total_agatston_score`: row anchors, column center, same-row
candidates, sort-and-pick, fallback.  `(sortByDist cands).head?` is `none`
exactly when `cands` is empty, which is the source's `if candidates:`
guard. -/
def extract_total_agatston_score (words : List OCRWord) :
    Except ExtractError Int :=
  let totals := find_total_words words
  if totals = [] then .error .rowLabelNotFound
  else
    match find_agatston_column_center words with
    | none => .error .columnLabelNotFound
    | some center =>
        let cands := extract_candidates words totals center
        match (sortByDist cands).head? with
        | some best => .ok best.2
        | none =>
            match fallback_search words center with
            | some v => .ok v
            | none => .error .noIntersectionValue

/-- First minimum of a candidate list: the element with minimal distance,
ties resolved to the earliest element.  Specification device used to state
what sorting-then-taking-the-head and the strict-improvement folds
compute. -/
def firstMin : List (ℚ × Int) → Option (ℚ × Int)
  | [] => none
  | a :: t =>
      match firstMin t with
      | none => some a
      | some b => if a.1 ≤ b.1 then some a else some b

/-- Combination of an accumulator with the first minimum of the remaining
qualifiers; ties keep the accumulator (it arrived earlier).  Specification
device for the strict-improvement folds. -/
def keepCloser : Option (ℚ × Int) → Option (ℚ × Int) → Option (ℚ × Int)
  | none, m => m
  | some a, none => some a
  | some a, some b => if b.1 < a.1 then some b else some a

/-- Declarative shape of a match of the pattern `[-+]?\d[\d,\.]*`:
a digit, or a sign followed by a digit, then digits/commas/periods. -/
def numShape (m : List Char) : Prop :=
  (∃ c ds, m = c :: ds ∧ c.isDigit = true ∧ ∀ x ∈ ds, isNumTail x = true) ∨
  (∃ s d ds, m = s :: d :: ds ∧ (s = '-' ∨ s = '+') ∧ d.isDigit = true ∧
    ∀ x ∈ ds, isNumTail x = true)

/-- Declarative leftmost-greedy semantics of `re.search` for the numeric
pattern: `m` occurs in `s` at the first position where a match can start,
and is not extendable (the character following it is not a tail
character). -/
def leftmostNumMatch (s m : List Char) : Prop :=
  ∃ pre post, s = pre ++ m ++ post ∧
    numShape m ∧
    (∀ j, j < pre.length → startsNum (s.drop j) = false) ∧
    startsNum (s.drop pre.length) = true ∧
    (∀ c, post.head? = some c → isNumTail c = false)

end Agatston

namespace Pattern

/-- Dataclass `AnchorDefinition`: one layout-identifying probe point.  The colour is
an RGB triple of channel values. -/
structure AnchorDefinition where
  x : Int
  y : Int
  color : Int × Int × Int
  tolerance : Int
  description : Option String
deriving DecidableEq, Repr

/-- Dataclass `PatternDefinition`: one named layout. -/
structure PatternDefinition where
  name : String
  anchors : List AnchorDefinition
  priority : Int
deriving DecidableEq, Repr

/-- A captured image: pixel dimensions plus the channel list of each pixel
(an RGB screenshot yields 3 channels, an RGBA one 4).  `pix` is consulted
only at in-bounds coordinates. -/
structure PImage where
  width : Nat
  height : Nat
  pix : Nat → Nat → List Int

/-- The anchor colour triple as a channel list, as `zip` sees it. -/
def colorList (c : Int × Int × Int) : List Int := [c.1, c.2.1, c.2.2]

/-- Function `_color_within_tolerance`: maximum per-channel absolute deviation of the
zipped channels, compared with the tolerance.  `none` models the
`ValueError` Python's `max` raises on an empty generator (an actual colour
with no channels). -/
def colorWithinTolerance (actual expected : List Int) (tolerance : Int) :
    Option Bool :=
  match ((actual.zip expected).map (fun p => |p.1 - p.2|)).max? with
  | none => none
  | some m => some (decide (m ≤ tolerance))

/-- Pillow `Image.getpixel`: `none` models the exception raised on an
out-of-bounds access. -/
def getpixel (img : PImage) (x y : Int) : Option (List Int) :=
  if 0 ≤ x ∧ x < (img.width : Int) ∧ 0 ≤ y ∧ y < (img.height : Int) then
    some (img.pix x.toNat y.toNat)
  else none

/-- The anchor loop of `PatternDefinition.matches`: translate each anchor by
the origin, fail closed when out of bounds, otherwise sample the pixel and
compare colours; short-circuit on the first failing anchor.  An outer
`none` models a raised exception (never produced: the bounds test precedes
the sample). -/
def anchorsPass (img : PImage) (ox oy : Int) :
    List AnchorDefinition → Option Bool
  | [] => some true
  | a :: rest =>
      let rx := a.x - ox
      let ry := a.y - oy
      if 0 ≤ rx ∧ rx < (img.width : Int) ∧ 0 ≤ ry ∧ ry < (img.height : Int)
      then
        match getpixel img rx ry with
        | none => none
        | some px =>
            match colorWithinTolerance px (colorList a.color) a.tolerance with
            | none => none
            | some true => anchorsPass img ox oy rest
            | some false => some false
      else some false

/-- Method `PatternDefinition.matches`: a pattern with no anchors matches
unconditionally; otherwise all anchors must pass. -/
def patternMatches (p : PatternDefinition) (img : PImage) (origin : Int × Int) :
    Option Bool :=
  if p.anchors = [] then some true
  else anchorsPass img origin.1 origin.2 p.anchors

/-- Outcome of `PatternExtractor.detect_pattern`: the first matching
pattern, or the `ValueError` raised when none matches. -/
inductive DetectOutcome
  | found (p : PatternDefinition)
  | noPatternMatched
deriving DecidableEq, Repr

/-- Method `detect_pattern`: evaluate the stored patterns in order and return the
first match; `some .noPatternMatched` models the final `ValueError`, outer
`none` a crash inside `matches` (never produced for well-formed images). -/
def detect_pattern (img : PImage) (origin : Int × Int) :
    List PatternDefinition → Option DetectOutcome
  | [] => some .noPatternMatched
  | p :: rest =>
      match patternMatches p img origin with
      | none => none
      | some true => some (.found p)
      | some false => detect_pattern img origin rest

/-- The `(priority, name)` sort key of `ExtractorConfig.from_sources`:
Python tuple comparison, lexicographic with string comparison on names. -/
def patternLe (p q : PatternDefinition) : Bool :=
  decide (p.priority < q.priority) ||
    (decide (p.priority = q.priority) && decide (p.name ≤ q.name))

/-- Stable insertion for the `(priority, name)` sort: an earlier-loaded
pattern with an equal key stays earlier. -/
def insertPattern (a : PatternDefinition) :
    List PatternDefinition → List PatternDefinition
  | [] => [a]
  | b :: t => if patternLe a b then a :: b :: t else b :: insertPattern a t

/-- Python `patterns.sort(key=lambda p: (p.priority, p.name))`: the sort is
stable, and any stable sort by the same key computes the same list;
insertion sort is used here. -/
def sortPatterns (l : List PatternDefinition) : List PatternDefinition :=
  l.foldr insertPattern []

end Pattern

namespace Agatston

/-! Concrete OCR word sets used by the witness theorems. -/

/-- A row-anchor word "Total" on OCR line 2 of block 1. -/
def wTotal : OCRWord :=
  { text := "Total", left := 0, top := 100, width := 50, height := 10,
    conf := 95, line_num := 2, block_num := 1, page_num := 1, par_num := 1 }

/-- A column-header word "Agatston" on OCR line 1 of block 1. -/
def wAgatston : OCRWord :=
  { text := "Agatston", left := 200, top := 0, width := 60, height := 10,
    conf := 95, line_num := 1, block_num := 1, page_num := 1, par_num := 1 }

/-- A numeric word "130" on the same OCR line as `wTotal`. -/
def wNum : OCRWord :=
  { text := "130", left := 190, top := 100, width := 20, height := 10,
    conf := 95, line_num := 2, block_num := 1, page_num := 1, par_num := 1 }

/-- A numeric word near the top edge, for fallback-path witnesses. -/
def wFall : OCRWord :=
  { text := "42", left := 220, top := 10, width := 20, height := 10,
    conf := 95, line_num := 5, block_num := 2, page_num := 1, par_num := 1 }

/-- Witness word set with a same-row numeric value. -/
def wsRow : List OCRWord := [wTotal, wAgatston, wNum]

/-- Witness word set whose value is only reachable through the fallback. -/
def wsFall : List OCRWord := [wTotal, wAgatston, wFall]

/-- Witness word set with labels but no numeric word anywhere. -/
def wsNone : List OCRWord := [wTotal, wAgatston]

end Agatston

namespace Pattern

/-! Concrete patterns and images used by the witness theorems. -/

/-- A 10×10 all-(1,2,3) RGB image. -/
def imgW : PImage := { width := 10, height := 10, pix := fun _ _ => [1, 2, 3] }

/-- An anchor inside `imgW` (origin `(0,0)`) expecting its colour. -/
def anchorIn : AnchorDefinition :=
  { x := 4, y := 5, color := (1, 2, 3), tolerance := 20, description := none }

/-- An anchor outside `imgW` for origin `(0,0)`. -/
def anchorOut : AnchorDefinition :=
  { x := 40, y := 5, color := (1, 2, 3), tolerance := 20, description := none }

/-- A pattern whose single anchor is out of frame. -/
def patOut : PatternDefinition :=
  { name := "b-out", anchors := [anchorOut], priority := 0 }

/-- A catch-all pattern with no anchors. -/
def patAll : PatternDefinition :=
  { name := "z-all", anchors := [], priority := 1 }

/-- A pattern whose single anchor verifies on `imgW`. -/
def patIn : PatternDefinition :=
  { name := "a-in", anchors := [anchorIn], priority := 0 }

end Pattern

namespace Agatston

/-- The column reference x-coordinate computed by
`find_agatston_column_center` when matches exist. -/
def columnMean (words : List OCRWord) : ℚ :=
  ((agatston_words words).map center_x).sum / ((agatston_words words).length : ℚ)

end Agatston

namespace Pattern

/-- The image-local coordinate of an anchor lies inside the pixel bounds. -/
def anchorInBounds (img : PImage) (origin : Int × Int)
    (a : AnchorDefinition) : Prop :=
  0 ≤ a.x - origin.1 ∧ a.x - origin.1 < (img.width : Int) ∧
    0 ≤ a.y - origin.2 ∧ a.y - origin.2 < (img.height : Int)

instance (img : PImage) (origin : Int × Int) (a : AnchorDefinition) :
    Decidable (anchorInBounds img origin a) := by
  unfold anchorInBounds
  infer_instance

end Pattern

/-! ## Infrastructure lemmas -/

namespace Agatston

theorem firstMin_nil : firstMin [] = none := rfl

theorem firstMin_cons_none {t : List (ℚ × Int)} {a : ℚ × Int}
    (h : firstMin t = none) : firstMin (a :: t) = some a := by
  simp [firstMin, h]

theorem firstMin_cons_some {t : List (ℚ × Int)} {a b : ℚ × Int}
    (h : firstMin t = some b) :
    firstMin (a :: t) = if a.1 ≤ b.1 then some a else some b := by
  simp [firstMin, h]

theorem keepCloser_none (m : Option (ℚ × Int)) : keepCloser none m = m := rfl

theorem keepCloser_some_none (a : ℚ × Int) :
    keepCloser (some a) none = some a := rfl

theorem keepCloser_some_some (a b : ℚ × Int) :
    keepCloser (some a) (some b) = if b.1 < a.1 then some b else some a := rfl

theorem stepMin_of_none {α : Type} {f : α → Option (ℚ × Int)} {x : α}
    (acc : Option (ℚ × Int)) (h : f x = none) : stepMin f acc x = acc := by
  simp [stepMin, h]

theorem stepMin_of_some_none {α : Type} {f : α → Option (ℚ × Int)} {x : α}
    {p : ℚ × Int} (h : f x = some p) : stepMin f none x = some p := by
  simp [stepMin, h]

theorem stepMin_of_some_some {α : Type} {f : α → Option (ℚ × Int)} {x : α}
    {p : ℚ × Int} (b : ℚ × Int) (h : f x = some p) :
    stepMin f (some b) x = if p.1 < b.1 then some p else some b := by
  simp [stepMin, h]

theorem firstMin_eq_none {l : List (ℚ × Int)} : firstMin l = none ↔ l = [] := by
  cases l with
  | nil => simp [firstMin]
  | cons a t =>
      constructor
      · intro h
        cases h2 : firstMin t with
        | none => rw [firstMin_cons_none h2] at h; exact absurd h (by simp)
        | some b =>
            rw [firstMin_cons_some h2] at h
            split at h <;> simp at h
      · intro h; exact absurd h (by simp)

theorem firstMin_mem {l : List (ℚ × Int)} {p : ℚ × Int}
    (h : firstMin l = some p) : p ∈ l := by
  induction l with
  | nil => simp [firstMin] at h
  | cons a t ih =>
      cases h2 : firstMin t with
      | none =>
          rw [firstMin_cons_none h2] at h
          simp only [Option.some.injEq] at h
          simp [h]
      | some b =>
          rw [firstMin_cons_some h2] at h
          split at h <;> simp only [Option.some.injEq] at h
          · simp [h]
          · subst h; exact List.mem_cons_of_mem _ (ih h2)

theorem firstMin_le {l : List (ℚ × Int)} {p : ℚ × Int}
    (h : firstMin l = some p) : ∀ q ∈ l, p.1 ≤ q.1 := by
  induction l generalizing p with
  | nil => simp [firstMin] at h
  | cons a t ih =>
      cases h2 : firstMin t with
      | none =>
          rw [firstMin_cons_none h2] at h
          simp only [Option.some.injEq] at h
          subst h
          have ht : t = [] := firstMin_eq_none.mp h2
          subst ht
          simp
      | some b =>
          rw [firstMin_cons_some h2] at h
          intro q hq
          rcases List.mem_cons.mp hq with hq | hq
          · subst hq
            split at h <;> simp only [Option.some.injEq] at h <;> subst h
            · rfl
            · next hab => linarith [not_le.mp hab]
          · split at h <;> simp only [Option.some.injEq] at h <;> subst h
            · next hab => exact le_trans hab (ih h2 q hq)
            · exact ih h2 q hq

theorem firstMin_first {l : List (ℚ × Int)} {p : ℚ × Int}
    (h : firstMin l = some p) :
    ∃ i, ∃ hi : i < l.length, l.get ⟨i, hi⟩ = p ∧
      ∀ j, j < i → ∀ hj : j < l.length, p.1 < (l.get ⟨j, hj⟩).1 := by
  induction l with
  | nil => simp [firstMin] at h
  | cons a t ih =>
      cases h2 : firstMin t with
      | none =>
          rw [firstMin_cons_none h2] at h
          simp only [Option.some.injEq] at h
          subst h
          exact ⟨0, by simp, rfl, by omega⟩
      | some b =>
          rw [firstMin_cons_some h2] at h
          split at h <;> simp only [Option.some.injEq] at h <;> subst h
          · exact ⟨0, by simp, rfl, by omega⟩
          · next hab =>
              obtain ⟨i, hi, hget, hfirst⟩ := ih h2
              refine ⟨i + 1, by simpa using Nat.succ_lt_succ hi, by simpa using hget, ?_⟩
              intro j hj hjlen
              cases j with
              | zero => simpa using not_le.mp hab
              | succ k =>
                  have hk : k < i := Nat.lt_of_succ_lt_succ hj
                  have hklen : k < t.length := by
                    simpa using Nat.lt_of_succ_lt_succ hjlen
                  simpa using hfirst k hk hklen

theorem foldl_stepMin {α : Type} (f : α → Option (ℚ × Int)) :
    ∀ (l : List α) (acc : Option (ℚ × Int)),
      l.foldl (stepMin f) acc = keepCloser acc (firstMin (l.filterMap f)) := by
  intro l
  induction l with
  | nil => intro acc; cases acc <;> rfl
  | cons x t ih =>
      intro acc
      rw [List.foldl_cons, ih]
      cases hx : f x with
      | none =>
          rw [stepMin_of_none acc hx, List.filterMap_cons_none hx]
      | some p =>
          rw [List.filterMap_cons_some hx]
          cases acc with
          | none =>
              rw [stepMin_of_some_none hx, keepCloser_none]
              cases hm : firstMin (t.filterMap f) with
              | none =>
                  rw [firstMin_cons_none hm, keepCloser_some_none]
              | some b =>
                  rw [firstMin_cons_some hm, keepCloser_some_some]
                  split_ifs <;> first | rfl | (exfalso; linarith)
          | some a =>
              rw [stepMin_of_some_some a hx]
              cases hm : firstMin (t.filterMap f) with
              | none =>
                  rw [firstMin_cons_none hm]
                  by_cases h1 : p.1 < a.1
                  · rw [if_pos h1, keepCloser_some_none, keepCloser_some_some,
                      if_pos h1]
                  · rw [if_neg h1, keepCloser_some_none, keepCloser_some_some,
                      if_neg h1]
              | some b =>
                  rw [firstMin_cons_some hm]
                  by_cases h1 : p.1 < a.1
                  · rw [if_pos h1]
                    by_cases h2 : p.1 ≤ b.1
                    · rw [if_pos h2]
                      simp only [keepCloser_some_some]
                      split_ifs <;> first | rfl | (exfalso; linarith)
                    · rw [if_neg h2]
                      simp only [keepCloser_some_some]
                      split_ifs <;> first | rfl | (exfalso; linarith)
                  · rw [if_neg h1]
                    by_cases h2 : p.1 ≤ b.1
                    · rw [if_pos h2]
                      simp only [keepCloser_some_some]
                      split_ifs <;> first | rfl | (exfalso; linarith)
                    · rw [if_neg h2]

theorem candidateFor_eq (words : List OCRWord) (center : ℚ) (a : Nat × OCRWord) :
    candidateFor words center a =
      firstMin ((same_line words a.2).filterMap (candMap center a.1)) := by
  unfold candidateFor
  rw [foldl_stepMin, keepCloser_none]

theorem fallback_search_eq (words : List OCRWord) (center thr : ℚ) :
    fallback_search words center thr =
      (firstMin (words.filterMap (fallMap center thr))).map Prod.snd := by
  unfold fallback_search
  rw [foldl_stepMin, keepCloser_none]

theorem sortByDist_cons (a : ℚ × Int) (t : List (ℚ × Int)) :
    sortByDist (a :: t) = insertByDist a (sortByDist t) := rfl

theorem head?_sortByDist (l : List (ℚ × Int)) :
    (sortByDist l).head? = firstMin l := by
  induction l with
  | nil => rfl
  | cons a t ih =>
      rw [sortByDist_cons]
      cases hs : sortByDist t with
      | nil =>
          rw [hs] at ih
          simp only [List.head?] at ih
          rw [firstMin_cons_none ih.symm]
          rfl
      | cons b t2 =>
          rw [hs] at ih
          simp only [List.head?] at ih
          rw [firstMin_cons_some ih.symm]
          by_cases hab : a.1 ≤ b.1 <;>
            simp [insertByDist, hab]

end Agatston

namespace Agatston

theorem numSearch_cons_digit {c : Char} {rest : List Char}
    (h : c.isDigit = true) :
    numSearch (c :: rest) = some (c :: rest.takeWhile isNumTail) := by
  simp [numSearch, h]

theorem numSearch_cons_sign_nil {c : Char} (hd : ¬c.isDigit = true)
    (hs : (c = '-' || c = '+') = true) : numSearch [c] = none := by
  simp [numSearch, hd, hs]

theorem numSearch_cons_sign_digit {c d : Char} {rest2 : List Char}
    (hd : ¬c.isDigit = true) (hs : (c = '-' || c = '+') = true)
    (h2 : d.isDigit = true) :
    numSearch (c :: d :: rest2) = some (c :: d :: rest2.takeWhile isNumTail) := by
  simp [numSearch, hd, hs, h2]

theorem numSearch_cons_sign_nodigit {c d : Char} {rest2 : List Char}
    (hd : ¬c.isDigit = true) (hs : (c = '-' || c = '+') = true)
    (h2 : ¬d.isDigit = true) :
    numSearch (c :: d :: rest2) = numSearch (d :: rest2) := by
  conv =>
    lhs
    rw [numSearch.eq_def]
  simp [hd, hs, h2]

theorem numSearch_cons_other {c : Char} {rest : List Char}
    (hd : ¬c.isDigit = true) (hs : ¬(c = '-' || c = '+') = true) :
    numSearch (c :: rest) = numSearch rest := by
  conv =>
    lhs
    rw [numSearch.eq_def]
  simp [hd, hs]

theorem startsNum_cons {c : Char} {rest : List Char} :
    startsNum (c :: rest) =
      (c.isDigit ||
        ((c = '-' || c = '+') && match rest with
          | [] => false
          | d :: _ => d.isDigit)) := rfl

theorem forall_drop_cons {c : Char} {rest : List Char} :
    (∀ j, startsNum ((c :: rest).drop j) = false) ↔
      (startsNum (c :: rest) = false ∧ ∀ j, startsNum (rest.drop j) = false) := by
  constructor
  · intro h
    refine ⟨h 0, fun j => ?_⟩
    simpa using h (j + 1)
  · rintro ⟨h0, h⟩ j
    cases j with
    | zero => simpa using h0
    | succ k => simpa using h k

theorem numSearch_none_iff {s : List Char} :
    numSearch s = none ↔ ∀ j, startsNum (s.drop j) = false := by
  induction s with
  | nil => simp [numSearch, startsNum]
  | cons c rest ih =>
      rw [forall_drop_cons]
      by_cases hd : c.isDigit
      · rw [numSearch_cons_digit hd]
        simp [startsNum_cons, hd]
      · by_cases hsign : (c = '-' || c = '+') = true
        · cases rest with
          | nil =>
              rw [numSearch_cons_sign_nil hd hsign]
              simp [startsNum_cons, hd, hsign, startsNum]
          | cons d rest2 =>
              by_cases hd2 : d.isDigit
              · rw [numSearch_cons_sign_digit hd hsign hd2]
                simp [startsNum_cons, hd, hsign, hd2]
              · rw [numSearch_cons_sign_nodigit hd hsign hd2, ih]
                simp [startsNum_cons, hd, hsign, hd2]
        · rw [numSearch_cons_other hd hsign, ih]
          simp [startsNum_cons, hd, hsign]

theorem head?_dropWhile_isNumTail (l : List Char) :
    ∀ c, (l.dropWhile isNumTail).head? = some c → isNumTail c = false := by
  intro c hc
  have h := List.head?_dropWhile_not isNumTail l
  rw [hc] at h
  exact h

theorem numSearch_some_spec {s m : List Char} (h : numSearch s = some m) :
    leftmostNumMatch s m := by
  induction s with
  | nil => simp [numSearch] at h
  | cons c rest ih =>
      by_cases hd : c.isDigit
      · rw [numSearch_cons_digit hd, Option.some.injEq] at h
        subst h
        refine ⟨[], rest.dropWhile isNumTail, ?_, ?_, ?_, ?_, ?_⟩
        · simp [List.takeWhile_append_dropWhile]
        · exact Or.inl ⟨c, rest.takeWhile isNumTail, rfl, hd,
            fun x hx => List.mem_takeWhile_imp hx⟩
        · intro j hj; simp at hj
        · simpa [startsNum_cons] using Or.inl hd
        · exact fun c2 hc2 => head?_dropWhile_isNumTail rest c2 hc2
      · by_cases hsign : (c = '-' || c = '+') = true
        · cases rest with
          | nil => rw [numSearch_cons_sign_nil hd hsign] at h; exact absurd h (by simp)
          | cons d rest2 =>
              by_cases hd2 : d.isDigit
              · rw [numSearch_cons_sign_digit hd hsign hd2, Option.some.injEq] at h
                subst h
                refine ⟨[], rest2.dropWhile isNumTail, ?_, ?_, ?_, ?_, ?_⟩
                · simp [List.takeWhile_append_dropWhile]
                · refine Or.inr ⟨c, d, rest2.takeWhile isNumTail, rfl, ?_, hd2,
                    fun x hx => List.mem_takeWhile_imp hx⟩
                  rcases Bool.or_eq_true_iff.mp hsign with h1 | h1
                  · exact Or.inl (by simpa using h1)
                  · exact Or.inr (by simpa using h1)
                · intro j hj; simp at hj
                · simp [startsNum_cons, hsign, hd2]
                · exact fun c2 hc2 => head?_dropWhile_isNumTail rest2 c2 hc2
              · rw [numSearch_cons_sign_nodigit hd hsign hd2] at h
                obtain ⟨pre, post, heq, hshape, hleft, hstart, hpost⟩ := ih h
                refine ⟨c :: pre, post, by simp [heq], hshape, ?_, ?_, hpost⟩
                · intro j hj
                  cases j with
                  | zero => simp [startsNum_cons, hd, hsign, hd2]
                  | succ k =>
                      have hk : k < pre.length := by simpa using hj
                      simpa using hleft k hk
                · simpa using hstart
        · rw [numSearch_cons_other hd hsign] at h
          obtain ⟨pre, post, heq, hshape, hleft, hstart, hpost⟩ := ih h
          refine ⟨c :: pre, post, by simp [heq], hshape, ?_, ?_, hpost⟩
          · intro j hj
            cases j with
            | zero => simp [startsNum_cons, hd, hsign]
            | succ k =>
                have hk : k < pre.length := by simpa using hj
                simpa using hleft k hk
          · simpa using hstart

end Agatston

namespace Agatston

theorem numShape_has_digit {m : List Char} (h : numShape m) :
    ∃ c ∈ m, c.isDigit = true := by
  rcases h with ⟨c, ds, rfl, hc, _⟩ | ⟨s, d, ds, rfl, _, hd, _⟩
  · exact ⟨c, by simp, hc⟩
  · exact ⟨d, by simp, hd⟩

theorem numSearch_some_has_digit {s m : List Char} (h : numSearch s = some m) :
    ∃ c ∈ s, c.isDigit = true := by
  obtain ⟨pre, post, heq, hshape, _, _, _⟩ := numSearch_some_spec h
  obtain ⟨c, hc, hdig⟩ := numShape_has_digit hshape
  exact ⟨c, by rw [heq]; simp [hc], hdig⟩

theorem numSearch_digits_ne_nil {s m : List Char} (h : numSearch s = some m) :
    m.filter Char.isDigit ≠ [] := by
  obtain ⟨pre, post, heq, hshape, _, _, _⟩ := numSearch_some_spec h
  obtain ⟨c, hc, hdig⟩ := numShape_has_digit hshape
  intro hnil
  have := List.filter_eq_nil_iff.mp hnil c hc
  simp [hdig] at this

theorem numericValue_of_numSearch {s : String} {m : List Char}
    (h : numSearch s.data = some m) :
    numericValue s = some ((natFromDigits (m.filter Char.isDigit) : Nat) : Int) := by
  unfold numericValue
  rw [h]
  simp [numSearch_digits_ne_nil h]

theorem numericValue_eq_none_iff {s : String} :
    numericValue s = none ↔ numSearch s.data = none := by
  constructor
  · intro h
    cases h2 : numSearch s.data with
    | none => rfl
    | some m => rw [numericValue_of_numSearch h2] at h; exact absurd h (by simp)
  · intro h
    unfold numericValue
    rw [h]

theorem not_whitespace_of_digit {c : Char} (h : c.isDigit = true) :
    c.isWhitespace = false := by
  by_contra hw
  rw [Bool.not_eq_false] at hw
  have hw2 : c = ' ' ∨ c = '\t' ∨ c = '\r' ∨ c = '\n' := by
    simpa [Char.isWhitespace, Bool.or_eq_true, decide_eq_true_eq, or_assoc]
      using hw
  rcases hw2 with rfl | rfl | rfl | rfl <;> exact absurd h (by decide)

theorem toLower_of_digit {c : Char} (h : c.isDigit = true) : c.toLower = c := by
  simp only [Char.isDigit] at h
  obtain ⟨h48, h57⟩ := (Bool.and_eq_true _ _).mp h
  have h57n : c.val.toNat ≤ 57 := of_decide_eq_true h57
  unfold Char.toLower
  rw [if_neg]
  simp only [not_and]
  intro h65
  simp only [Char.toNat] at h65 ⊢
  omega

theorem mem_dropWhileWS {l : List Char} {c : Char} (hc : c ∈ l)
    (hw : c.isWhitespace = false) : c ∈ l.dropWhile Char.isWhitespace := by
  induction l with
  | nil => simp at hc
  | cons a t ih =>
      by_cases ha : a.isWhitespace
      · rw [List.dropWhile_cons_of_pos ha]
        rcases List.mem_cons.mp hc with rfl | hct
        · rw [ha] at hw; exact absurd hw (by simp)
        · exact ih hct
      · rw [List.dropWhile_cons_of_neg ha]
        exact hc

theorem digit_mem_stripWS {l : List Char} {c : Char} (hc : c ∈ l)
    (hd : c.isDigit = true) : c ∈ stripWS l := by
  unfold stripWS
  have hw := not_whitespace_of_digit hd
  have h1 : c ∈ l.dropWhile Char.isWhitespace := mem_dropWhileWS hc hw
  have h2 : c ∈ (l.dropWhile Char.isWhitespace).reverse := by simpa using h1
  have h3 := mem_dropWhileWS h2 hw
  simpa using h3

theorem collapseWS_cons_cons (a b : Char) (rest : List Char) :
    collapseWS (a :: b :: rest) =
      if a.isWhitespace ∧ b.isWhitespace then collapseWS (b :: rest)
      else (if a.isWhitespace then ' ' else a) :: collapseWS (b :: rest) := rfl

theorem digit_mem_collapseWS {l : List Char} {c : Char} (hc : c ∈ l)
    (hd : c.isDigit = true) : c ∈ collapseWS l := by
  have hw := not_whitespace_of_digit hd
  induction l with
  | nil => simp at hc
  | cons a t ih =>
      cases t with
      | nil =>
          rcases List.mem_singleton.mp hc with rfl
          rw [collapseWS]
          rw [if_neg (by simp [hw])]
          simp
      | cons b rest =>
          rw [collapseWS_cons_cons]
          by_cases hab : a.isWhitespace = true ∧ b.isWhitespace = true
          · rw [if_pos hab]
            rcases List.mem_cons.mp hc with rfl | hct
            · exact absurd hab.1 (by simp [hw])
            · exact ih hct
          · rw [if_neg hab]
            rcases List.mem_cons.mp hc with rfl | hct
            · rw [if_neg (by simp [hw])]
              simp
            · exact List.mem_cons_of_mem _ (ih hct)

theorem digit_mem_normalize {s : String} {c : Char} (hc : c ∈ s.data)
    (hd : c.isDigit = true) : c ∈ normalize s := by
  unfold normalize
  have h1 := digit_mem_collapseWS hc hd
  have h2 := digit_mem_stripWS h1 hd
  have h3 := List.mem_map_of_mem Char.toLower h2
  rwa [toLower_of_digit hd] at h3

theorem no_digit_of_normalize_total {s : String}
    (h : normalize s = "total".data) : ∀ c ∈ s.data, c.isDigit = false := by
  intro c hc
  by_contra hd
  rw [Bool.not_eq_false] at hd
  have hmem := digit_mem_normalize hc hd
  rw [h] at hmem
  have hall : ∀ x ∈ "total".data, x.isDigit = false := by decide
  have := hall c hmem
  rw [this] at hd
  exact absurd hd (by simp)

theorem numericValue_none_of_normalize_total {s : String}
    (h : normalize s = "total".data) : numericValue s = none := by
  rw [numericValue_eq_none_iff]
  cases h2 : numSearch s.data with
  | none => rfl
  | some m =>
      exfalso
      obtain ⟨c, hc, hdig⟩ := numSearch_some_has_digit h2
      have := no_digit_of_normalize_total h c hc
      rw [this] at hdig
      exact absurd hdig (by simp)

end Agatston

namespace Agatston

theorem mem_of_mem_enum {l : List OCRWord} {p : Nat × OCRWord}
    (h : p ∈ l.enum) : p.2 ∈ l := by
  obtain ⟨h1, h2⟩ := List.mem_enum (x := p.2) (i := p.1) (by simpa using h)
  rw [h2]
  exact List.get_mem l p.1 h1

theorem enum_fst_inj {l : List OCRWord} {p q : Nat × OCRWord}
    (hp : p ∈ l.enum) (hq : q ∈ l.enum) (h : p.1 = q.1) : p = q := by
  have hp2 := List.mem_enum_iff_get?.mp (by simpa using hp)
  have hq2 := List.mem_enum_iff_get?.mp (by simpa using hq)
  rw [h] at hp2
  rw [hp2] at hq2
  exact Prod.ext h (Option.some.inj hq2)

theorem find_total_words_eq_nil_iff {words : List OCRWord} :
    find_total_words words = [] ↔
      ∀ w ∈ words, normalize w.text ≠ "total".data := by
  unfold find_total_words
  rw [List.filter_eq_nil_iff]
  constructor
  · intro h w hw hnorm
    obtain ⟨i, hi⟩ := List.mem_iff_get?.mp hw
    exact h (i, w) (List.mem_enum_iff_get?.mpr hi) (by simpa using hnorm)
  · intro h p hp hnorm
    exact h p.2 (mem_of_mem_enum hp) (by simpa using hnorm)

theorem mem_find_total_words {words : List OCRWord} {p : Nat × OCRWord} :
    p ∈ find_total_words words ↔
      p ∈ words.enum ∧ normalize p.2.text = "total".data := by
  unfold find_total_words
  rw [List.mem_filter]
  simp

theorem agatston_words_eq_nil_iff {words : List OCRWord} :
    agatston_words words = [] ↔
      ∀ w ∈ words, ("agatston".data).isPrefixOf (normalize w.text) = false := by
  unfold agatston_words
  rw [List.filter_eq_nil_iff]
  constructor
  · intro h w hw
    by_contra hb
    rw [Bool.not_eq_false] at hb
    exact h w hw hb
  · intro h w hw hb
    rw [h w hw] at hb
    exact absurd hb (by simp)

theorem extract_rowLabelNotFound {words : List OCRWord}
    (h : find_total_words words = []) :
    extract_total_agatston_score words = .error .rowLabelNotFound := by
  unfold extract_total_agatston_score
  simp [h]

theorem extract_columnLabelNotFound {words : List OCRWord}
    (hT : find_total_words words ≠ []) (hA : agatston_words words = []) :
    extract_total_agatston_score words = .error .columnLabelNotFound := by
  unfold extract_total_agatston_score find_agatston_column_center
  simp [hT, hA]

theorem find_center_of_ne_nil {words : List OCRWord}
    (hA : agatston_words words ≠ []) :
    find_agatston_column_center words = some (columnMean words) := by
  unfold find_agatston_column_center columnMean
  simp [hA]

theorem extract_eq_of_labels {words : List OCRWord}
    (hT : find_total_words words ≠ []) (hA : agatston_words words ≠ []) :
    extract_total_agatston_score words =
      (match firstMin (extract_candidates words (find_total_words words)
          (columnMean words)) with
       | some best => .ok best.2
       | none =>
           match fallback_search words (columnMean words) with
           | some v => .ok v
           | none => .error .noIntersectionValue) := by
  unfold extract_total_agatston_score
  rw [if_neg hT, find_center_of_ne_nil hA]
  dsimp only
  rw [head?_sortByDist]

end Agatston

namespace Agatston

theorem buildWords_eq (data : List RawToken) :
    buildWords data =
      (data.filter (fun t => !(stripWS t.text.data).isEmpty)).map mkOCRWord := by
  induction data with
  | nil => rfl
  | cons t rest ih =>
      by_cases h : stripWS t.text.data = []
      · simp [buildWords, List.filter_cons, h, ih]
      · simp [buildWords, List.filter_cons, h, ih]

theorem buildWords_eq_nil_iff (data : List RawToken) :
    buildWords data = [] ↔ ∀ t ∈ data, stripWS t.text.data = [] := by
  rw [buildWords_eq]
  simp only [List.map_eq_nil_iff, List.filter_eq_nil_iff]
  constructor
  · intro h t ht
    have := h t ht
    simpa using this
  · intro h t ht
    simp [h t ht]

/-- C7: OCR Word Model construction keeps exactly the raw tokens whose
trimmed text is non-empty (in their original order, realised as a
filter-then-map), fails with `NoTextRecognized` (modelled as `none`) iff
the resulting sequence is empty, and a token with an unparseable
confidence (`conf = none`) is kept with the `-1` sentinel rather than
dropped, while a parseable confidence is stored unchanged. -/
theorem C7_word_model_construction (data : List RawToken) :
    (buildWords data =
      (data.filter (fun t => !(stripWS t.text.data).isEmpty)).map mkOCRWord) ∧
    (extract_words data = none ↔ ∀ t ∈ data, stripWS t.text.data = []) ∧
    (∀ ws, extract_words data = some ws → ws = buildWords data ∧ ws ≠ []) ∧
    (∀ t : RawToken, t.conf = none → (mkOCRWord t).conf = -1) ∧
    (∀ t : RawToken, ∀ c, t.conf = some c → (mkOCRWord t).conf = c) := by
  refine ⟨buildWords_eq data, ?_, ?_, ?_, ?_⟩
  · unfold extract_words
    by_cases h : buildWords data = []
    · simp only [h, if_pos rfl]
      simp only [if_true]
      exact iff_of_true trivial ((buildWords_eq_nil_iff data).mp h)
    · rw [if_neg h]
      constructor
      · intro hc; exact absurd hc (by simp)
      · intro hall
        exact absurd ((buildWords_eq_nil_iff data).mpr hall) h
  · intro ws hws
    unfold extract_words at hws
    by_cases h : buildWords data = []
    · rw [if_pos h] at hws; exact absurd hws (by simp)
    · rw [if_neg h] at hws
      obtain rfl := Option.some.inj hws
      exact ⟨rfl, h⟩
  · intro t h
    unfold mkOCRWord
    rw [h]
  · intro t c h
    unfold mkOCRWord
    rw [h]

/-- C8: the locator fails with `RowLabelNotFound` iff no word's normalized
text equals `"total"`, and — when row anchors exist — fails with
`ColumnLabelNotFound` iff no word's normalized text starts with
`"agatston"`; the first iff holding unconditionally (also when the column
label is absent too) shows the row check precedes the column check. -/
theorem C8_row_and_column_errors (words : List OCRWord) :
    (extract_total_agatston_score words = .error .rowLabelNotFound ↔
      ∀ w ∈ words, normalize w.text ≠ "total".data) ∧
    ((∃ w ∈ words, normalize w.text = "total".data) →
      (extract_total_agatston_score words = .error .columnLabelNotFound ↔
        ∀ w ∈ words, ("agatston".data).isPrefixOf (normalize w.text) = false)) := by
  constructor
  · constructor
    · intro h
      by_contra hno
      push_neg at hno
      obtain ⟨w, hw, hnorm⟩ := hno
      have hT : find_total_words words ≠ [] := by
        rw [Ne, find_total_words_eq_nil_iff]
        push_neg
        exact ⟨w, hw, hnorm⟩
      by_cases hA : agatston_words words = []
      · rw [extract_columnLabelNotFound hT hA] at h
        simp at h
      · rw [extract_eq_of_labels hT hA] at h
        cases hfm : firstMin (extract_candidates words (find_total_words words)
            (columnMean words)) with
        | some best => rw [hfm] at h; simp at h
        | none =>
            rw [hfm] at h
            cases hfb : fallback_search words (columnMean words) with
            | some v => rw [hfb] at h; simp at h
            | none => rw [hfb] at h; simp at h
    · intro h
      exact extract_rowLabelNotFound (find_total_words_eq_nil_iff.mpr h)
  · intro hex
    have hT : find_total_words words ≠ [] := by
      rw [Ne, find_total_words_eq_nil_iff]
      push_neg
      exact hex
    constructor
    · intro h
      by_contra hno
      have hA : agatston_words words ≠ [] := by
        rw [Ne, agatston_words_eq_nil_iff]
        exact hno
      rw [extract_eq_of_labels hT hA] at h
      cases hfm : firstMin (extract_candidates words (find_total_words words)
          (columnMean words)) with
      | some best => rw [hfm] at h; simp at h
      | none =>
          rw [hfm] at h
          cases hfb : fallback_search words (columnMean words) with
          | some v => rw [hfb] at h; simp at h
          | none => rw [hfb] at h; simp at h
    · intro h
      exact extract_columnLabelNotFound hT (agatston_words_eq_nil_iff.mpr h)

end Agatston

namespace Agatston

theorem fallMap_of_none {c thr : ℚ} {w : OCRWord}
    (h : numericValue w.text = none) : fallMap c thr w = none := by
  simp [fallMap, h]

theorem fallMap_of_some {c thr : ℚ} {w : OCRWord} {v : Int}
    (h : numericValue w.text = some v) :
    fallMap c thr w =
      if |center_y w| > thr then none else some (|center_x w - c|, v) := by
  simp only [fallMap, h]

theorem fallMap_eq_some {center thr : ℚ} {w : OCRWord} {p : ℚ × Int} :
    fallMap center thr w = some p ↔
      (numericValue w.text = some p.2 ∧ |center_y w| ≤ thr ∧
        p.1 = |center_x w - center|) := by
  cases h : numericValue w.text with
  | none =>
      rw [fallMap_of_none h]
      simp
  | some v =>
      rw [fallMap_of_some h]
      by_cases hy : |center_y w| > thr
      · rw [if_pos hy]
        constructor
        · intro hc; exact absurd hc (by simp)
        · rintro ⟨-, hle, -⟩; linarith
      · rw [if_neg hy]
        simp only [Option.some.injEq]
        constructor
        · rintro rfl
          exact ⟨rfl, not_lt.mp hy, rfl⟩
        · rintro ⟨hv, -, hp1⟩
          obtain ⟨p1, p2⟩ := p
          simp only at hv hp1 ⊢
          rw [hp1, hv]

theorem fallMap_qualifies (center thr : ℚ) (w : OCRWord) :
    (∃ p, fallMap center thr w = some p) ↔
      (numericValue w.text ≠ none ∧ |center_y w| ≤ thr) := by
  constructor
  · rintro ⟨p, hp⟩
    obtain ⟨hv, hy, -⟩ := fallMap_eq_some.mp hp
    exact ⟨by simp [hv], hy⟩
  · rintro ⟨hv, hy⟩
    cases h : numericValue w.text with
    | none => exact absurd h hv
    | some v =>
        exact ⟨(|center_x w - center|, v),
          fallMap_eq_some.mpr ⟨by simp [h], hy, rfl⟩⟩

theorem fallMap_none_of_far {center thr : ℚ} {w : OCRWord}
    (hy : |center_y w| > thr) : fallMap center thr w = none := by
  cases h : numericValue w.text with
  | none => exact fallMap_of_none h
  | some v => rw [fallMap_of_some h, if_pos hy]

theorem filterMap_fallMap_eq_filter (ws : List OCRWord) (c thr : ℚ) :
    ws.filterMap (fallMap c thr) =
      (ws.filter (fun w => decide (|center_y w| ≤ thr))).filterMap
        (fallMap c thr) := by
  induction ws with
  | nil => rfl
  | cons w rest ih =>
      by_cases hy : |center_y w| ≤ thr
      · rw [List.filter_cons_of_pos (by simpa using hy)]
        cases hf : fallMap c thr w with
        | none => rw [List.filterMap_cons_none hf, List.filterMap_cons_none hf, ih]
        | some p => rw [List.filterMap_cons_some hf, List.filterMap_cons_some hf, ih]
      · rw [List.filter_cons_of_neg (by simpa using hy)]
        rw [List.filterMap_cons_none (fallMap_none_of_far (not_le.mp hy)), ih]

/-- C9: at the public extraction operation the fallback threshold is the
fixed default 30: when the same-row search produced no candidate the result
is exactly that of `fallback_search` at threshold 30, and a fallback search
at threshold 30 ignores every word with `|center_y| > 30` (its filter is
`abs(centerY) ≤ 30`). -/
theorem C9_fallback_threshold_fixed (words : List OCRWord)
    (hT : find_total_words words ≠ []) (hA : agatston_words words ≠ [])
    (hc : extract_candidates words (find_total_words words)
      (columnMean words) = []) :
    (extract_total_agatston_score words =
      (match fallback_search words (columnMean words) 30 with
       | some v => .ok v
       | none => .error .noIntersectionValue)) ∧
    (∀ c : ℚ, ∀ ws : List OCRWord, fallback_search ws c 30 =
      fallback_search (ws.filter (fun w => decide (|center_y w| ≤ (30:ℚ)))) c 30) := by
  constructor
  · rw [extract_eq_of_labels hT hA, hc]
    rfl
  · intro c ws
    rw [fallback_search_eq, fallback_search_eq, filterMap_fallMap_eq_filter]

/-- C3: with both labels found, the same-row path is taken exactly when it
produced a candidate; otherwise the fallback runs over all words in the
set — a word qualifies iff it has a numeric substring and
`|center_y| ≤ 30` — the extraction fails with `NoIntersectionValue` iff no
word qualifies, and a returned value is that of a qualifying word of
minimal horizontal distance to the column reference x-coordinate. -/
theorem C3_fallback_path (words : List OCRWord)
    (hT : find_total_words words ≠ []) (hA : agatston_words words ≠ []) :
    (extract_candidates words (find_total_words words) (columnMean words) ≠ [] →
      ∃ p ∈ extract_candidates words (find_total_words words) (columnMean words),
        extract_total_agatston_score words = .ok p.2) ∧
    (extract_candidates words (find_total_words words) (columnMean words) = [] →
      (∀ w : OCRWord,
        (∃ p, fallMap (columnMean words) 30 w = some p) ↔
          (numericValue w.text ≠ none ∧ |center_y w| ≤ 30)) ∧
      ((extract_total_agatston_score words = .error .noIntersectionValue) ↔
        ∀ w ∈ words, fallMap (columnMean words) 30 w = none) ∧
      (∀ v, extract_total_agatston_score words = .ok v →
        ∃ w ∈ words,
          fallMap (columnMean words) 30 w =
            some (|center_x w - columnMean words|, v) ∧
          ∀ u ∈ words, ∀ q, fallMap (columnMean words) 30 u = some q →
            |center_x w - columnMean words| ≤ q.1)) := by
  constructor
  · intro hne
    cases hfm : firstMin (extract_candidates words (find_total_words words)
        (columnMean words)) with
    | none => exact absurd (firstMin_eq_none.mp hfm) hne
    | some p =>
        refine ⟨p, firstMin_mem hfm, ?_⟩
        rw [extract_eq_of_labels hT hA, hfm]
  · intro hc
    have hext : extract_total_agatston_score words =
        (match (firstMin (words.filterMap (fallMap (columnMean words) 30))).map
            Prod.snd with
         | some v => Except.ok v
         | none => Except.error ExtractError.noIntersectionValue) := by
      rw [extract_eq_of_labels hT hA, hc]
      simp only [firstMin_nil]
      rw [fallback_search_eq]
    refine ⟨fun w => fallMap_qualifies (columnMean words) 30 w, ?_, ?_⟩
    · cases hfm2 : firstMin (words.filterMap (fallMap (columnMean words) 30)) with
      | none =>
          rw [hfm2] at hext
          simp only [Option.map_none'] at hext
          constructor
          · intro _ w hw
            cases hf : fallMap (columnMean words) 30 w with
            | none => rfl
            | some p =>
                exfalso
                have hmem : p ∈ words.filterMap (fallMap (columnMean words) 30) :=
                  List.mem_filterMap.mpr ⟨w, hw, hf⟩
                rw [firstMin_eq_none.mp hfm2] at hmem
                simp at hmem
          · intro _
            exact hext
      | some q =>
          rw [hfm2] at hext
          simp only [Option.map_some'] at hext
          constructor
          · intro hcon
            rw [hext] at hcon
            exact absurd hcon (by simp)
          · intro hall
            exfalso
            obtain ⟨w, hw, hfw⟩ := List.mem_filterMap.mp (firstMin_mem hfm2)
            rw [hall w hw] at hfw
            exact absurd hfw (by simp)
    · intro v hv
      rw [hext] at hv
      cases hfm2 : firstMin (words.filterMap (fallMap (columnMean words) 30)) with
      | none =>
          rw [hfm2] at hv
          simp at hv
      | some q =>
          rw [hfm2] at hv
          simp only [Option.map_some', Except.ok.injEq] at hv
          obtain ⟨w, hw, hfw⟩ := List.mem_filterMap.mp (firstMin_mem hfm2)
          obtain ⟨hnv, hy, hq1⟩ := fallMap_eq_some.mp hfw
          refine ⟨w, hw, ?_, ?_⟩
          · rw [hfw]
            have hq : q = (|center_x w - columnMean words|, v) := by
              obtain ⟨q1, q2⟩ := q
              simp only at hq1 hv ⊢
              rw [hq1, hv]
            rw [hq]
          · intro u hu q2 hq2
            have hmem2 : q2 ∈ words.filterMap (fallMap (columnMean words) 30) :=
              List.mem_filterMap.mpr ⟨u, hu, hq2⟩
            have hle := firstMin_le hfm2 q2 hmem2
            rw [← hq1]
            exact hle

theorem candMap_of_skip {center : ℚ} {ai : Nat} {iw : Nat × OCRWord}
    (hi : iw.1 = ai) : candMap center ai iw = none := by
  simp [candMap, hi]

theorem candMap_of_none {center : ℚ} {ai : Nat} {iw : Nat × OCRWord}
    (hi : ¬iw.1 = ai) (h : numericValue iw.2.text = none) :
    candMap center ai iw = none := by
  simp [candMap, hi, h]

theorem candMap_of_some {center : ℚ} {ai : Nat} {iw : Nat × OCRWord} {v : Int}
    (hi : ¬iw.1 = ai) (h : numericValue iw.2.text = some v) :
    candMap center ai iw = some (|center_x iw.2 - center|, v) := by
  simp only [candMap, hi, if_neg, h]
  simp

theorem candMap_eq_some {center : ℚ} {ai : Nat} {iw : Nat × OCRWord}
    {p : ℚ × Int} :
    candMap center ai iw = some p ↔
      (iw.1 ≠ ai ∧ numericValue iw.2.text = some p.2 ∧
        p.1 = |center_x iw.2 - center|) := by
  by_cases hi : iw.1 = ai
  · rw [candMap_of_skip hi]
    simp [hi]
  · cases h : numericValue iw.2.text with
    | none =>
        rw [candMap_of_none hi h]
        simp [h]
    | some v =>
        rw [candMap_of_some hi h]
        simp only [Option.some.injEq, h, ne_eq, hi, not_false_iff, true_and]
        constructor
        · rintro rfl
          exact ⟨rfl, rfl⟩
        · rintro ⟨hv, hp1⟩
          obtain ⟨p1, p2⟩ := p
          simp only [Option.some.injEq] at hv
          simp only at hp1 ⊢
          rw [hp1, hv]

theorem mem_same_line {words : List OCRWord} {anchor : OCRWord}
    {iw : Nat × OCRWord} (h : iw ∈ same_line words anchor) :
    iw ∈ words.enum ∧ iw.2.line_num = anchor.line_num ∧
      iw.2.block_num = anchor.block_num := by
  unfold same_line at h
  have h2 := List.mem_filter.mp h
  refine ⟨h2.1, ?_⟩
  have := h2.2
  simp only [decide_eq_true_eq] at this
  exact this

theorem mem_extract_candidates {words : List OCRWord}
    {totals : List (Nat × OCRWord)} {center : ℚ} {p : ℚ × Int} :
    p ∈ extract_candidates words totals center ↔
      ∃ a ∈ totals, candidateFor words center a = some p := by
  unfold extract_candidates
  exact List.mem_filterMap

theorem numericValue_some_inv {s : String} {v : Int}
    (h : numericValue s = some v) :
    ∃ m, numSearch s.data = some m ∧
      v = ((natFromDigits (m.filter Char.isDigit) : Nat) : Int) := by
  cases h2 : numSearch s.data with
  | none =>
      rw [numericValue_eq_none_iff.mpr h2] at h
      exact absurd h (by simp)
  | some m =>
      rw [numericValue_of_numSearch h2] at h
      exact ⟨m, rfl, (Option.some.inj h).symm⟩

/-- C6: every integer returned by the extraction (same-row or fallback
path) is the natural number formed from the digit characters of the first
numeric match in some word of the set — digit-stripping discards any sign,
so the result is never negative. -/
theorem C6_returned_value_nonneg (words : List OCRWord) (v : Int)
    (h : extract_total_agatston_score words = .ok v) :
    0 ≤ v ∧ ∃ w ∈ words, ∃ m, numSearch w.text.data = some m ∧
      v = ((natFromDigits (m.filter Char.isDigit) : Nat) : Int) := by
  have hmain : ∃ w ∈ words, numericValue w.text = some v := by
    by_cases hT : find_total_words words = []
    · rw [extract_rowLabelNotFound hT] at h
      exact absurd h (by simp)
    · by_cases hA : agatston_words words = []
      · rw [extract_columnLabelNotFound hT hA] at h
        exact absurd h (by simp)
      · rw [extract_eq_of_labels hT hA] at h
        cases hfm : firstMin (extract_candidates words (find_total_words words)
            (columnMean words)) with
        | some p =>
            rw [hfm] at h
            simp only [Except.ok.injEq] at h
            obtain ⟨a, ha, hcf⟩ := mem_extract_candidates.mp (firstMin_mem hfm)
            rw [candidateFor_eq] at hcf
            obtain ⟨iw, hiw, hcm⟩ := List.mem_filterMap.mp (firstMin_mem hcf)
            obtain ⟨-, hnv, -⟩ := candMap_eq_some.mp hcm
            refine ⟨iw.2, mem_of_mem_enum (mem_same_line hiw).1, ?_⟩
            rw [hnv, h]
        | none =>
            rw [hfm] at h
            cases hfb : fallback_search words (columnMean words) with
            | none => rw [hfb] at h; exact absurd h (by simp)
            | some v2 =>
                rw [hfb] at h
                simp only [Except.ok.injEq] at h
                rw [fallback_search_eq] at hfb
                cases hfm2 : firstMin (words.filterMap
                    (fallMap (columnMean words) 30)) with
                | none => rw [hfm2] at hfb; exact absurd hfb (by simp)
                | some q =>
                    rw [hfm2] at hfb
                    simp only [Option.map_some', Option.some.injEq] at hfb
                    obtain ⟨w, hw, hfw⟩ :=
                      List.mem_filterMap.mp (firstMin_mem hfm2)
                    obtain ⟨hnv, -, -⟩ := fallMap_eq_some.mp hfw
                    refine ⟨w, hw, ?_⟩
                    rw [hnv, hfb, h]
  obtain ⟨w, hw, hnv⟩ := hmain
  obtain ⟨m, hm, hv⟩ := numericValue_some_inv hnv
  refine ⟨?_, w, hw, m, hm, hv⟩
  rw [hv]
  exact Int.natCast_nonneg _

/-- C2: the value used by the locator is the integer formed by deleting
every non-digit character of the first regex match in the word: a found
match is the leftmost, greedily extended occurrence of the numeric pattern,
the value is `natFromDigits` of its digit characters, a word without a
match start has no match, and literally `"1,234.5"` yields `12345` (the
whole token is the match; comma and period are deleted, not used for
rounding). -/
theorem C2_digit_stripping :
    (∀ (s : String) (m : List Char), numSearch s.data = some m →
      (leftmostNumMatch s.data m ∧
        numericValue s =
          some ((natFromDigits (m.filter Char.isDigit) : Nat) : Int))) ∧
    (∀ s : String, numSearch s.data = none →
      ∀ j, startsNum (s.data.drop j) = false) ∧
    numSearch ("1,234.5".data) = some ("1,234.5".data) ∧
    numericValue "1,234.5" = some 12345 := by
  refine ⟨?_, ?_, ?_, ?_⟩
  · intro s m h
    exact ⟨numSearch_some_spec h, numericValue_of_numSearch h⟩
  · intro s h
    exact numSearch_none_iff.mp h
  · decide
  · decide

/-- C1: when a row anchor, a column word and a numeric same-line word all
exist, the extraction returns the value of the candidate whose word is
horizontally closest to the arithmetic mean of the `center_x` of all
column-prefix matches; each row anchor contributes only its single closest
numeric same-line word, and equal-distance ties are broken by candidate
discovery order (the chosen candidate is strictly closer than every earlier
one). -/
theorem C1_intersection_selection (words : List OCRWord)
    (hT : ∃ w ∈ words, normalize w.text = "total".data)
    (hA : ∃ w ∈ words, ("agatston".data).isPrefixOf (normalize w.text) = true)
    (hN : ∃ a ∈ find_total_words words, ∃ iw ∈ same_line words a.2,
      ∃ j, startsNum (iw.2.text.data.drop j) = true) :
    ∃ cands, cands = extract_candidates words (find_total_words words)
        (columnMean words) ∧
      find_agatston_column_center words = some (columnMean words) ∧
      (∀ a ∈ find_total_words words,
        ∀ p, candidateFor words (columnMean words) a = some p →
          ∃ iw ∈ same_line words a.2,
            candMap (columnMean words) a.1 iw = some p ∧
            ∀ jw ∈ same_line words a.2, ∀ q,
              candMap (columnMean words) a.1 jw = some q → p.1 ≤ q.1) ∧
      ∃ i, ∃ hi : i < cands.length,
        extract_total_agatston_score words = .ok (cands.get ⟨i, hi⟩).2 ∧
        (∀ j, ∀ hj : j < cands.length,
          (cands.get ⟨i, hi⟩).1 ≤ (cands.get ⟨j, hj⟩).1) ∧
        (∀ j, j < i → ∀ hj : j < cands.length,
          (cands.get ⟨i, hi⟩).1 < (cands.get ⟨j, hj⟩).1) := by
  obtain ⟨wt, hwt, hwtn⟩ := hT
  have hT2 : find_total_words words ≠ [] := by
    obtain ⟨i, hi⟩ := List.mem_iff_get?.mp hwt
    exact List.ne_nil_of_mem
      ((@mem_find_total_words words (i, wt)).mpr
        ⟨List.mem_enum_iff_get?.mpr hi, hwtn⟩)
  obtain ⟨wa, hwa, hwan⟩ := hA
  have hA2 : agatston_words words ≠ [] := by
    unfold agatston_words
    exact List.ne_nil_of_mem (List.mem_filter.mpr ⟨hwa, hwan⟩)
  obtain ⟨a, ha, iw, hiw, j, hstart⟩ := hN
  have hnum : ∃ v, numericValue iw.2.text = some v := by
    cases h2 : numSearch iw.2.text.data with
    | none =>
        exfalso
        have := numSearch_none_iff.mp h2 j
        rw [hstart] at this
        exact absurd this (by simp)
    | some m =>
        exact ⟨_, numericValue_of_numSearch h2⟩
  obtain ⟨v, hv⟩ := hnum
  have hne : iw.1 ≠ a.1 := by
    intro heq
    have haenum := (mem_find_total_words.mp ha).1
    have hanorm := (mem_find_total_words.mp ha).2
    have hiwenum := (mem_same_line hiw).1
    have : iw = a := enum_fst_inj hiwenum haenum heq
    rw [this] at hv
    rw [numericValue_none_of_normalize_total hanorm] at hv
    exact absurd hv (by simp)
  have hcm : candMap (columnMean words) a.1 iw =
      some (|center_x iw.2 - columnMean words|, v) := candMap_of_some hne hv
  have hcands_ne : extract_candidates words (find_total_words words)
      (columnMean words) ≠ [] := by
    have hmemL : (|center_x iw.2 - columnMean words|, v) ∈
        (same_line words a.2).filterMap (candMap (columnMean words) a.1) :=
      List.mem_filterMap.mpr ⟨iw, hiw, hcm⟩
    have hLne : (same_line words a.2).filterMap
        (candMap (columnMean words) a.1) ≠ [] := List.ne_nil_of_mem hmemL
    cases hcf : candidateFor words (columnMean words) a with
    | none =>
        rw [candidateFor_eq] at hcf
        exact absurd (firstMin_eq_none.mp hcf) hLne
    | some p =>
        exact List.ne_nil_of_mem (mem_extract_candidates.mpr ⟨a, ha, hcf⟩)
  refine ⟨extract_candidates words (find_total_words words) (columnMean words),
    rfl, find_center_of_ne_nil hA2, ?_, ?_⟩
  · intro a2 ha2 p hp
    rw [candidateFor_eq] at hp
    obtain ⟨iw2, hiw2, hcm2⟩ := List.mem_filterMap.mp (firstMin_mem hp)
    refine ⟨iw2, hiw2, hcm2, ?_⟩
    intro jw hjw q hq
    exact firstMin_le hp q (List.mem_filterMap.mpr ⟨jw, hjw, hq⟩)
  · cases hfm : firstMin (extract_candidates words (find_total_words words)
        (columnMean words)) with
    | none => exact absurd (firstMin_eq_none.mp hfm) hcands_ne
    | some p =>
        obtain ⟨i, hi, hget, hfirst⟩ := firstMin_first hfm
        refine ⟨i, hi, ?_, ?_, ?_⟩
        · rw [extract_eq_of_labels hT2 hA2, hfm, hget]
        · intro j2 hj2
          rw [hget]
          exact firstMin_le hfm _ (List.get_mem _ j2 hj2)
        · intro j2 hj2lt hj2
          rw [hget]
          exact hfirst j2 hj2lt hj2

end Agatston

namespace Pattern

theorem anchorsPass_nil (img : PImage) (ox oy : Int) :
    anchorsPass img ox oy [] = some true := rfl

theorem anchorsPass_cons (img : PImage) (ox oy : Int) (a : AnchorDefinition)
    (rest : List AnchorDefinition) :
    anchorsPass img ox oy (a :: rest) =
      (if 0 ≤ a.x - ox ∧ a.x - ox < (img.width : Int) ∧
          0 ≤ a.y - oy ∧ a.y - oy < (img.height : Int) then
        match getpixel img (a.x - ox) (a.y - oy) with
        | none => none
        | some px =>
            match colorWithinTolerance px (colorList a.color) a.tolerance with
            | none => none
            | some true => anchorsPass img ox oy rest
            | some false => some false
      else some false) := rfl

theorem getpixel_in {img : PImage} {x y : Int}
    (h : 0 ≤ x ∧ x < (img.width : Int) ∧ 0 ≤ y ∧ y < (img.height : Int)) :
    getpixel img x y = some (img.pix x.toNat y.toNat) := by
  unfold getpixel
  rw [if_pos h]

theorem colorWithinTolerance_ne_none {px : List Int} (h : px ≠ [])
    (c : Int × Int × Int) (tol : Int) :
    colorWithinTolerance px (colorList c) tol ≠ none := by
  cases px with
  | nil => exact absurd rfl h
  | cons p1 rest =>
      unfold colorWithinTolerance colorList
      cases hm : ((((p1 :: rest).zip [c.1, c.2.1, c.2.2]).map
          (fun p => |p.1 - p.2|)).max?) with
      | none =>
          rw [List.max?_eq_none_iff] at hm
          simp at hm
      | some m =>
          simp

theorem anchorsPass_ne_none {img : PImage} (ox oy : Int)
    (hpix : ∀ x y, img.pix x y ≠ []) (l : List AnchorDefinition) :
    anchorsPass img ox oy l ≠ none := by
  induction l with
  | nil => simp [anchorsPass_nil]
  | cons a rest ih =>
      rw [anchorsPass_cons]
      by_cases hb : 0 ≤ a.x - ox ∧ a.x - ox < (img.width : Int) ∧
          0 ≤ a.y - oy ∧ a.y - oy < (img.height : Int)
      · rw [if_pos hb, getpixel_in hb]
        dsimp only
        cases hc : colorWithinTolerance
            (img.pix (a.x - ox).toNat (a.y - oy).toNat)
            (colorList a.color) a.tolerance with
        | none => exact absurd hc (colorWithinTolerance_ne_none (hpix _ _) _ _)
        | some b =>
            cases b with
            | true => simpa using ih
            | false => simp
      · rw [if_neg hb]
        simp

theorem patternMatches_ne_none (p : PatternDefinition) (img : PImage)
    (origin : Int × Int) (hpix : ∀ x y, img.pix x y ≠ []) :
    patternMatches p img origin ≠ none := by
  unfold patternMatches
  by_cases hanch : p.anchors = []
  · rw [if_pos hanch]
    simp
  · rw [if_neg hanch]
    exact anchorsPass_ne_none origin.1 origin.2 hpix p.anchors

theorem patternMatches_empty_anchors (p : PatternDefinition) (img : PImage)
    (origin : Int × Int) (h : p.anchors = []) :
    patternMatches p img origin = some true := by
  unfold patternMatches
  rw [if_pos h]

theorem anchorsPass_not_true_of_oob {img : PImage} {ox oy : Int}
    {l : List AnchorDefinition} {a : AnchorDefinition} (ha : a ∈ l)
    (hb : ¬(0 ≤ a.x - ox ∧ a.x - ox < (img.width : Int) ∧
      0 ≤ a.y - oy ∧ a.y - oy < (img.height : Int))) :
    anchorsPass img ox oy l ≠ some true := by
  induction l with
  | nil => simp at ha
  | cons b rest ih =>
      rw [anchorsPass_cons]
      rcases List.mem_cons.mp ha with rfl | ha2
      · rw [if_neg hb]
        simp
      · by_cases hb2 : 0 ≤ b.x - ox ∧ b.x - ox < (img.width : Int) ∧
            0 ≤ b.y - oy ∧ b.y - oy < (img.height : Int)
        · rw [if_pos hb2, getpixel_in hb2]
          dsimp only
          cases hc : colorWithinTolerance
              (img.pix (b.x - ox).toNat (b.y - oy).toNat)
              (colorList b.color) b.tolerance with
          | none => simp
          | some bb =>
              cases bb with
              | true => simpa using ih ha2
              | false => simp
        · rw [if_neg hb2]
          simp

/-- C5: for a pattern with anchors, an anchor whose translated coordinate is
out of the image bounds makes the pattern fail regardless of any pixel
colour; the matcher never raises (modelled: never `none`) because the
bounds test precedes the pixel sample; and the result only depends on
pixels inside the bounds. -/
theorem C5_out_of_bounds_fails_closed (p : PatternDefinition) (img : PImage)
    (origin : Int × Int) (hp : p.anchors ≠ [])
    (hpix : ∀ x y, img.pix x y ≠ []) :
    ((∃ a ∈ p.anchors, ¬anchorInBounds img origin a) →
      patternMatches p img origin = some false) ∧
    patternMatches p img origin ≠ none ∧
    (∀ img2 : PImage, img2.width = img.width → img2.height = img.height →
      (∀ x y, x < img.width → y < img.height → img2.pix x y = img.pix x y) →
      patternMatches p img2 origin = patternMatches p img origin) := by
  refine ⟨?_, patternMatches_ne_none p img origin hpix, ?_⟩
  · rintro ⟨a, ha, hb⟩
    unfold anchorInBounds at hb
    have hnt := anchorsPass_not_true_of_oob ha hb
    have hnn : anchorsPass img origin.1 origin.2 p.anchors ≠ none :=
      anchorsPass_ne_none origin.1 origin.2 hpix p.anchors
    unfold patternMatches
    rw [if_neg hp]
    cases h : anchorsPass img origin.1 origin.2 p.anchors with
    | none => exact absurd h hnn
    | some b =>
        cases b with
        | true => exact absurd h hnt
        | false => rfl
  · intro img2 hW hH hagree
    unfold patternMatches
    rw [if_neg hp, if_neg hp]
    induction p.anchors with
    | nil => rfl
    | cons a rest ih =>
        rw [anchorsPass_cons, anchorsPass_cons, hW, hH]
        by_cases hb : 0 ≤ a.x - origin.1 ∧
            a.x - origin.1 < (img.width : Int) ∧
            0 ≤ a.y - origin.2 ∧ a.y - origin.2 < (img.height : Int)
        · rw [if_pos hb, if_pos hb]
          have hb2 : 0 ≤ a.x - origin.1 ∧
              a.x - origin.1 < (img2.width : Int) ∧
              0 ≤ a.y - origin.2 ∧ a.y - origin.2 < (img2.height : Int) := by
            rw [hW, hH]
            exact hb
          rw [getpixel_in hb2, getpixel_in hb]
          have hpx : img2.pix (a.x - origin.1).toNat (a.y - origin.2).toNat =
              img.pix (a.x - origin.1).toNat (a.y - origin.2).toNat := by
            apply hagree
            · omega
            · omega
          rw [hpx]
          dsimp only
          cases hc : colorWithinTolerance
              (img.pix (a.x - origin.1).toNat (a.y - origin.2).toNat)
              (colorList a.color) a.tolerance with
          | none => rfl
          | some b =>
              cases b with
              | true => simpa using ih
              | false => rfl
        · rw [if_neg hb, if_neg hb]

end Pattern

namespace Pattern

theorem zip3_take (actual : List Int) (e1 e2 e3 : Int) :
    actual.zip [e1, e2, e3] = (actual.take 3).zip [e1, e2, e3] := by
  rcases actual with _ | ⟨a1, _ | ⟨a2, _ | ⟨a3, rest⟩⟩⟩ <;> simp

theorem colorWithinTolerance_take3 (actual expected : List Int) (tol : Int)
    (hlen : expected.length = 3) :
    colorWithinTolerance actual expected tol =
      colorWithinTolerance (actual.take 3) expected tol := by
  obtain ⟨e1, e2, e3, rfl⟩ := List.length_eq_three.mp hlen
  unfold colorWithinTolerance
  rw [zip3_take]

/-- C10: the colour comparison zips the actual pixel channels with the
three expected channels, so only the first three actual channels matter: an
RGBA pixel compares exactly as its RGB truncation, and a matcher run on an
image whose pixels are truncated to three channels decides every pattern
identically (the alpha channel can never cause a match or a mismatch). -/
theorem C10_alpha_channel_ignored :
    (∀ (actual expected : List Int) (tol : Int), expected.length = 3 →
      colorWithinTolerance actual expected tol =
        colorWithinTolerance (actual.take 3) expected tol) ∧
    (∀ r g b a er eg eb tol : Int,
      colorWithinTolerance [r, g, b, a] [er, eg, eb] tol =
        colorWithinTolerance [r, g, b] [er, eg, eb] tol) ∧
    (∀ (p : PatternDefinition) (img img2 : PImage) (origin : Int × Int),
      img2.width = img.width → img2.height = img.height →
      (∀ x y, img2.pix x y = (img.pix x y).take 3) →
      patternMatches p img2 origin = patternMatches p img origin) := by
  refine ⟨colorWithinTolerance_take3, ?_, ?_⟩
  · intro r g b a er eg eb tol
    exact colorWithinTolerance_take3 [r, g, b, a] [er, eg, eb] tol rfl
  · intro p img img2 origin hW hH hpx3
    unfold patternMatches
    by_cases hanch : p.anchors = []
    · rw [if_pos hanch, if_pos hanch]
    · rw [if_neg hanch, if_neg hanch]
      induction p.anchors with
      | nil => rfl
      | cons a rest ih =>
          rw [anchorsPass_cons, anchorsPass_cons, hW, hH]
          by_cases hb : 0 ≤ a.x - origin.1 ∧
              a.x - origin.1 < (img.width : Int) ∧
              0 ≤ a.y - origin.2 ∧ a.y - origin.2 < (img.height : Int)
          · rw [if_pos hb, if_pos hb]
            have hb2 : 0 ≤ a.x - origin.1 ∧
                a.x - origin.1 < (img2.width : Int) ∧
                0 ≤ a.y - origin.2 ∧ a.y - origin.2 < (img2.height : Int) := by
              rw [hW, hH]
              exact hb
            rw [getpixel_in hb2, getpixel_in hb]
            dsimp only
            rw [hpx3, ← colorWithinTolerance_take3
              (img.pix (a.x - origin.1).toNat (a.y - origin.2).toNat)
              (colorList a.color) a.tolerance rfl]
            cases hc : colorWithinTolerance
                (img.pix (a.x - origin.1).toNat (a.y - origin.2).toNat)
                (colorList a.color) a.tolerance with
            | none => rfl
            | some b =>
                cases b with
                | true => simpa using ih
                | false => rfl
          · rw [if_neg hb, if_neg hb]

theorem patternLe_total (p q : PatternDefinition) :
    patternLe p q = true ∨ patternLe q p = true := by
  unfold patternLe
  by_cases h1 : p.priority < q.priority
  · left; simp [h1]
  · by_cases h2 : q.priority < p.priority
    · right; simp [h2]
    · have heq : p.priority = q.priority :=
        le_antisymm (not_lt.mp h2) (not_lt.mp h1)
      by_cases h3 : p.name ≤ q.name
      · left; simp [heq, h3]
      · right; simp [heq.symm, le_of_not_le h3]

theorem patternLe_trans {p q r : PatternDefinition}
    (h1 : patternLe p q = true) (h2 : patternLe q r = true) :
    patternLe p r = true := by
  unfold patternLe at h1 h2 ⊢
  simp only [Bool.or_eq_true, Bool.and_eq_true, decide_eq_true_eq] at h1 h2 ⊢
  rcases h1 with h1 | ⟨h1a, h1b⟩ <;> rcases h2 with h2 | ⟨h2a, h2b⟩
  · left; omega
  · left; omega
  · left; omega
  · right; exact ⟨by omega, le_trans h1b h2b⟩

theorem insertPattern_perm (a : PatternDefinition)
    (l : List PatternDefinition) : (insertPattern a l).Perm (a :: l) := by
  induction l with
  | nil => exact List.Perm.refl _
  | cons b t ih =>
      unfold insertPattern
      by_cases h : patternLe a b
      · rw [if_pos h]
      · rw [if_neg h]
        exact (List.Perm.cons b ih).trans (List.Perm.swap a b t)

theorem insertPattern_sorted (a : PatternDefinition)
    {l : List PatternDefinition}
    (h : l.Pairwise (fun x y => patternLe x y = true)) :
    (insertPattern a l).Pairwise (fun x y => patternLe x y = true) := by
  induction l with
  | nil => simp [insertPattern]
  | cons b t ih =>
      unfold insertPattern
      obtain ⟨hb, ht⟩ := List.pairwise_cons.mp h
      by_cases hab : patternLe a b
      · rw [if_pos hab]
        refine List.Pairwise.cons ?_ h
        intro x hx
        rcases List.mem_cons.mp hx with rfl | hxt
        · exact hab
        · exact patternLe_trans hab (hb x hxt)
      · rw [if_neg hab]
        have hba : patternLe b a = true := (patternLe_total a b).resolve_left hab
        refine List.Pairwise.cons ?_ (ih ht)
        intro x hx
        have hx2 : x ∈ a :: t := (insertPattern_perm a t).mem_iff.mp hx
        rcases List.mem_cons.mp hx2 with rfl | hxt
        · exact hba
        · exact hb x hxt

theorem sortPatterns_perm (l : List PatternDefinition) :
    (sortPatterns l).Perm l := by
  induction l with
  | nil => exact List.Perm.refl _
  | cons a t ih =>
      have : sortPatterns (a :: t) = insertPattern a (sortPatterns t) := rfl
      rw [this]
      exact (insertPattern_perm a (sortPatterns t)).trans (List.Perm.cons a ih)

theorem sortPatterns_sorted (l : List PatternDefinition) :
    (sortPatterns l).Pairwise (fun x y => patternLe x y = true) := by
  induction l with
  | nil => simp [sortPatterns]
  | cons a t ih => exact insertPattern_sorted a ih

theorem detect_pattern_cons (img : PImage) (origin : Int × Int)
    (p : PatternDefinition) (rest : List PatternDefinition) :
    detect_pattern img origin (p :: rest) =
      (match patternMatches p img origin with
       | none => none
       | some true => some (.found p)
       | some false => detect_pattern img origin rest) := rfl

theorem detect_pattern_spec (img : PImage) (origin : Int × Int) :
    ∀ l : List PatternDefinition,
      (∀ p ∈ l, patternMatches p img origin ≠ none) →
      ∃ r, detect_pattern img origin l = some r ∧
        (r = .noPatternMatched ↔
          ∀ p ∈ l, patternMatches p img origin = some false) ∧
        (∀ q, r = .found q → patternMatches q img origin = some true ∧
          ∃ i, ∃ hi : i < l.length, l.get ⟨i, hi⟩ = q ∧
            ∀ j, j < i → ∀ hj : j < l.length,
              patternMatches (l.get ⟨j, hj⟩) img origin = some false) := by
  intro l
  induction l with
  | nil =>
      intro _
      refine ⟨.noPatternMatched, rfl, by simp, ?_⟩
      intro q hq
      exact absurd hq (by simp)
  | cons p rest ih =>
      intro h
      cases hm : patternMatches p img origin with
      | none => exact absurd hm (h p (by simp))
      | some b =>
          cases b with
          | true =>
              refine ⟨.found p, ?_, ?_, ?_⟩
              · rw [detect_pattern_cons, hm]
              · constructor
                · intro hcon; exact absurd hcon (by simp)
                · intro hall
                  have h2 := hall p (by simp)
                  rw [hm] at h2
                  exact absurd h2 (by simp)
              · intro q hq
                injection hq with hpq
                subst hpq
                refine ⟨hm, 0, by simp, rfl, ?_⟩
                intro j hj hjlen
                exact absurd hj (Nat.not_lt_zero j)
          | false =>
              obtain ⟨r, hdet, hiff, hfound⟩ :=
                ih (fun p2 hp2 => h p2 (by simp [hp2]))
              refine ⟨r, ?_, ?_, ?_⟩
              · rw [detect_pattern_cons, hm, hdet]
              · rw [hiff]
                constructor
                · intro hall p2 hp2
                  rcases List.mem_cons.mp hp2 with rfl | hp2t
                  · exact hm
                  · exact hall p2 hp2t
                · intro hall p2 hp2
                  exact hall p2 (by simp [hp2])
              · intro q hq
                obtain ⟨hqm, i, hi, hget, hfirst⟩ := hfound q hq
                refine ⟨hqm, i + 1, by simpa using Nat.succ_lt_succ hi,
                  by simpa using hget, ?_⟩
                intro j hj hjlen
                cases j with
                | zero => simpa using hm
                | succ k =>
                    have hk : k < i := Nat.lt_of_succ_lt_succ hj
                    have hklen : k < rest.length := by
                      simpa using Nat.lt_of_succ_lt_succ hjlen
                    simpa using hfirst k hk hklen

/-- C4: the patterns are evaluated in the stored order, which is a sort of
the loaded patterns by ascending `(priority, name)`; the first pattern
whose `matches` predicate is true is returned (every earlier pattern in the
stored order evaluated to false — short-circuiting, not best-scoring); a
pattern with an empty anchor list matches unconditionally, and the
detection fails with `NoPatternMatched` iff no pattern matches. -/
theorem C4_priority_order_first_match (ps : List PatternDefinition)
    (img : PImage) (origin : Int × Int)
    (hpix : ∀ x y, img.pix x y ≠ []) :
    (sortPatterns ps).Perm ps ∧
    (sortPatterns ps).Pairwise (fun a b => patternLe a b = true) ∧
    (∀ p : PatternDefinition, p.anchors = [] →
      patternMatches p img origin = some true) ∧
    ∃ r, detect_pattern img origin (sortPatterns ps) = some r ∧
      (r = .noPatternMatched ↔
        ∀ p ∈ ps, patternMatches p img origin = some false) ∧
      (∀ q, r = .found q → patternMatches q img origin = some true ∧
        ∃ i, ∃ hi : i < (sortPatterns ps).length,
          (sortPatterns ps).get ⟨i, hi⟩ = q ∧
          ∀ j, j < i → ∀ hj : j < (sortPatterns ps).length,
            patternMatches ((sortPatterns ps).get ⟨j, hj⟩) img origin =
              some false) := by
  have hperm := sortPatterns_perm ps
  obtain ⟨r, hdet, hiff, hfound⟩ := detect_pattern_spec img origin
    (sortPatterns ps) (fun p _ => patternMatches_ne_none p img origin hpix)
  refine ⟨hperm, sortPatterns_sorted ps,
    fun p hp => patternMatches_empty_anchors p img origin hp,
    r, hdet, ?_, hfound⟩
  rw [hiff]
  constructor
  · intro hall p hp
    exact hall p (hperm.mem_iff.mpr hp)
  · intro hall p hp
    exact hall p (hperm.mem_iff.mp hp)

end Pattern

namespace Agatston

/-- Witness for C1: a concrete word set with a "Total" anchor, an
"Agatston" header and a numeric same-line word; every hypothesis is
discharged at it. -/
theorem C1_intersection_selection_witness :
    (∃ w ∈ wsRow, normalize w.text = "total".data) ∧
    (∃ w ∈ wsRow, ("agatston".data).isPrefixOf (normalize w.text) = true) ∧
    (∃ a ∈ find_total_words wsRow, ∃ iw ∈ same_line wsRow a.2,
      ∃ j, startsNum (iw.2.text.data.drop j) = true) ∧
    (∃ cands, cands = extract_candidates wsRow (find_total_words wsRow)
        (columnMean wsRow) ∧
      find_agatston_column_center wsRow = some (columnMean wsRow) ∧
      (∀ a ∈ find_total_words wsRow,
        ∀ p, candidateFor wsRow (columnMean wsRow) a = some p →
          ∃ iw ∈ same_line wsRow a.2,
            candMap (columnMean wsRow) a.1 iw = some p ∧
            ∀ jw ∈ same_line wsRow a.2, ∀ q,
              candMap (columnMean wsRow) a.1 jw = some q → p.1 ≤ q.1) ∧
      ∃ i, ∃ hi : i < cands.length,
        extract_total_agatston_score wsRow = .ok (cands.get ⟨i, hi⟩).2 ∧
        (∀ j, ∀ hj : j < cands.length,
          (cands.get ⟨i, hi⟩).1 ≤ (cands.get ⟨j, hj⟩).1) ∧
        (∀ j, j < i → ∀ hj : j < cands.length,
          (cands.get ⟨i, hi⟩).1 < (cands.get ⟨j, hj⟩).1)) :=
  ⟨by decide, by decide,
    ⟨(0, wTotal), by decide, (2, wNum), by decide, 0, by decide⟩,
    C1_intersection_selection wsRow (by decide) (by decide)
      ⟨(0, wTotal), by decide, (2, wNum), by decide, 0, by decide⟩⟩

/-- Witness for C3: labels found; the same-row search of `wsFall` yields no
candidate, so the fallback clause of the theorem is exercised. -/
theorem C3_fallback_path_witness :
    (find_total_words wsFall ≠ []) ∧ (agatston_words wsFall ≠ []) ∧
    ((extract_candidates wsFall (find_total_words wsFall)
        (columnMean wsFall) ≠ [] →
      ∃ p ∈ extract_candidates wsFall (find_total_words wsFall)
          (columnMean wsFall),
        extract_total_agatston_score wsFall = .ok p.2) ∧
    (extract_candidates wsFall (find_total_words wsFall)
        (columnMean wsFall) = [] →
      (∀ w : OCRWord,
        (∃ p, fallMap (columnMean wsFall) 30 w = some p) ↔
          (numericValue w.text ≠ none ∧ |center_y w| ≤ 30)) ∧
      ((extract_total_agatston_score wsFall = .error .noIntersectionValue) ↔
        ∀ w ∈ wsFall, fallMap (columnMean wsFall) 30 w = none) ∧
      (∀ v, extract_total_agatston_score wsFall = .ok v →
        ∃ w ∈ wsFall,
          fallMap (columnMean wsFall) 30 w =
            some (|center_x w - columnMean wsFall|, v) ∧
          ∀ u ∈ wsFall, ∀ q, fallMap (columnMean wsFall) 30 u = some q →
            |center_x w - columnMean wsFall| ≤ q.1))) :=
  ⟨by decide, by decide, C3_fallback_path wsFall (by decide) (by decide)⟩

/-- Witness for C6: the extraction on `wsRow` returns 130, which the
theorem certifies non-negative and digit-built. -/
theorem C6_returned_value_nonneg_witness :
    extract_total_agatston_score wsRow = .ok 130 ∧
    (0 ≤ (130 : Int) ∧ ∃ w ∈ wsRow, ∃ m, numSearch w.text.data = some m ∧
      (130 : Int) = ((natFromDigits (m.filter Char.isDigit) : Nat) : Int)) :=
  ⟨rfl, C6_returned_value_nonneg wsRow 130 rfl⟩

/-- Witness for C9: labels found and no same-row candidate on `wsNone`. -/
theorem C9_fallback_threshold_fixed_witness :
    (find_total_words wsNone ≠ []) ∧ (agatston_words wsNone ≠ []) ∧
    (extract_candidates wsNone (find_total_words wsNone)
      (columnMean wsNone) = []) ∧
    ((extract_total_agatston_score wsNone =
      (match fallback_search wsNone (columnMean wsNone) 30 with
       | some v => .ok v
       | none => .error .noIntersectionValue)) ∧
    (∀ c : ℚ, ∀ ws : List OCRWord, fallback_search ws c 30 =
      fallback_search (ws.filter (fun w => decide (|center_y w| ≤ (30:ℚ)))) c 30)) :=
  ⟨by decide, by decide, by decide,
    C9_fallback_threshold_fixed wsNone (by decide) (by decide) (by decide)⟩

end Agatston

namespace Pattern

/-- Witness for C5: a single-anchor pattern whose anchor lies outside the
10×10 witness image. -/
theorem C5_out_of_bounds_fails_closed_witness :
    (patOut.anchors ≠ []) ∧ (∀ x y, imgW.pix x y ≠ []) ∧
    (((∃ a ∈ patOut.anchors, ¬anchorInBounds imgW (0, 0) a) →
      patternMatches patOut imgW (0, 0) = some false) ∧
    patternMatches patOut imgW (0, 0) ≠ none ∧
    (∀ img2 : PImage, img2.width = imgW.width → img2.height = imgW.height →
      (∀ x y, x < imgW.width → y < imgW.height → img2.pix x y = imgW.pix x y) →
      patternMatches patOut img2 (0, 0) = patternMatches patOut imgW (0, 0))) :=
  ⟨by decide, fun x y => by simp [imgW],
    C5_out_of_bounds_fails_closed patOut imgW (0, 0) (by decide)
      (fun x y => by simp [imgW])⟩

/-- Witness for C4: two loaded patterns (an out-of-frame one of priority 0
and an anchorless catch-all of priority 1) over the witness image. -/
theorem C4_priority_order_first_match_witness :
    (∀ x y, imgW.pix x y ≠ []) ∧
    ((sortPatterns [patOut, patAll]).Perm [patOut, patAll] ∧
    (sortPatterns [patOut, patAll]).Pairwise
      (fun a b => patternLe a b = true) ∧
    (∀ p : PatternDefinition, p.anchors = [] →
      patternMatches p imgW (0, 0) = some true) ∧
    ∃ r, detect_pattern imgW (0, 0) (sortPatterns [patOut, patAll]) = some r ∧
      (r = .noPatternMatched ↔
        ∀ p ∈ [patOut, patAll], patternMatches p imgW (0, 0) = some false) ∧
      (∀ q, r = .found q → patternMatches q imgW (0, 0) = some true ∧
        ∃ i, ∃ hi : i < (sortPatterns [patOut, patAll]).length,
          (sortPatterns [patOut, patAll]).get ⟨i, hi⟩ = q ∧
          ∀ j, j < i → ∀ hj : j < (sortPatterns [patOut, patAll]).length,
            patternMatches ((sortPatterns [patOut, patAll]).get ⟨j, hj⟩) imgW
              (0, 0) = some false)) :=
  ⟨fun x y => by simp [imgW],
    C4_priority_order_first_match [patOut, patAll] imgW (0, 0)
      (fun x y => by simp [imgW])⟩

end Pattern
